import Mathlib

/-!
Verification development for the WhatsApp session manager (src/main.py).

Paths are modelled as lists of path components (`FPath`), so that
`os.path.join p c` is `p ++ [c]`, `os.path.basename` is the last
component and `os.path.dirname` drops the last component.

The filesystem visible to the classifier is abstracted as three boolean
observations (`FS`): `os.path.exists`, `os.path.isdir` and
`os.access(·, os.R_OK)`.
-/

abbrev FPath := List String

/-- Abstract filesystem view used by `analyze_session_folder`:
`fsExists p` models `os.path.exists`, `isDir p` models `os.path.isdir`,
`canRead p` models `os.access(p, os.R_OK)`. -/
structure FS where
  fsExists : FPath → Bool
  isDir : FPath → Bool
  canRead : FPath → Bool

/-- Models `os.path.basename` on a component path: the last component ("" for the
empty path). -/
def bname (p : FPath) : String := (p.getLast?).getD ""

/-- Result dictionary of `analyze_session_folder` (src/main.py:2095-2099):
keys `is_chrome_profile`, `has_default_folder`, `default_path`. -/
structure SessionInfo where
  is_chrome_profile : Bool
  has_default_folder : Bool
  default_path : Option FPath
deriving DecidableEq, Repr

/-- The five Chrome profile marker filenames (src/main.py:2116). -/
def chrome_profile_files : List String :=
  ["Cookies", "Web Data", "History", "Login Data", "Preferences"]

/-- Models `ExtractionWorker.analyze_session_folder` (src/main.py:2093-2160).
Checks, in order: existence / directory-ness / readability guards, then
(1) the folder itself named `Default` with a marker file inside,
(2) a `Default` subdirectory (recording `has_default_folder` and
`default_path` even when no marker file is found inside it),
(3) marker files directly in the folder,
(4) a `Local Storage` entry together with either a nonempty step-3 marker
list or a `Local Storage/leveldb` entry. -/
def analyze_session_folder (fs : FS) (p : FPath) : SessionInfo :=
  if fs.fsExists p = false then ⟨false, false, none⟩
  else if fs.isDir p = false then ⟨false, false, none⟩
  else if fs.canRead p = false then ⟨false, false, none⟩
  else
    let markers := chrome_profile_files.filter fun f => fs.fsExists (p ++ [f])
    if bname p = "Default" && !markers.isEmpty then
      ⟨true, true, some p.dropLast⟩
    else
      let hdf := fs.fsExists (p ++ ["Default"]) && fs.isDir (p ++ ["Default"])
      let dp : Option FPath := if hdf then some p else none
      let dmarkers :=
        if hdf then chrome_profile_files.filter fun f => fs.fsExists (p ++ ["Default", f])
        else []
      if hdf && !dmarkers.isEmpty then ⟨true, true, some p⟩
      else if !markers.isEmpty then ⟨true, hdf, dp⟩
      else if fs.fsExists (p ++ ["Local Storage"]) &&
              (markers.length > 0 || fs.fsExists (p ++ ["Local Storage", "leveldb"])) then
        ⟨true, hdf, dp⟩
      else ⟨false, hdf, dp⟩

/-- Builds a concrete `FS` from finite lists: `ds` are the directories,
`fls` the plain files, `unreadable` the paths denied read access. -/
def fsOfLists (ds fls unreadable : List FPath) : FS where
  fsExists p := decide (p ∈ ds) || decide (p ∈ fls)
  isDir p := decide (p ∈ ds)
  canRead p := (decide (p ∈ ds) || decide (p ∈ fls)) && !decide (p ∈ unreadable)

-- Scenario 1 of C4: a directory named `Default` containing a file `Cookies`.
def c4fs1 : FS :=
  fsOfLists [["root"], ["root", "Default"]] [["root", "Default", "Cookies"]] []

-- Scenario 2 of C4: a directory containing a `Default` subdirectory with no
-- marker files inside it.
def c4fs2 : FS := fsOfLists [["top"], ["top", "Default"]] [] []

-- Scenario 3 of C4: an empty directory.
def c4fs3 : FS := fsOfLists [["empty"]] [] []

/-!
Catalog data model (`WhatsAppSessionManager`): `self.categories` is a list
of `{name, created_at}` dictionaries, `self.archives` a list of archive
dictionaries whose `category_index` is a positional index into
`self.categories` (or `None`). Timestamps are modelled as naturals.
-/

/-- One entry of `self.categories` (src/main.py:974-977). -/
structure Category where
  name : String
  created_at : Nat
deriving DecidableEq, Repr

/-- One entry of an archive's `sessions` list: `{name, path}`. -/
structure ASession where
  name : String
  path : FPath
deriving DecidableEq, Repr

/-- One entry of `self.archives` (src/main.py:874-880, 1673-1681).
`is_single_session` / `is_unpacked_archive` are flags only some creation
paths set; absent dictionary keys are modelled as `false`. -/
structure Archive where
  name : String
  path : FPath
  extracted_path : FPath
  sessions : List ASession
  category_index : Option Nat
  is_single_session : Bool := false
  is_unpacked_archive : Bool := false
deriving DecidableEq, Repr

/-- The catalog state: `self.categories` and `self.archives`. -/
structure Catalog where
  categories : List Category
  archives : List Archive
deriving DecidableEq, Repr

/-- The per-archive re-link loop of `delete_category`
(src/main.py:1030-1035): an archive of the deleted category moves to "no
category", references above the deleted index are decremented. -/
def relinkAfterDelete (category_index : Nat) (a : Archive) : Archive :=
  match a.category_index with
  | none => a
  | some ci =>
    if ci = category_index then { a with category_index := none }
    else if ci > category_index then { a with category_index := some (ci - 1) }
    else a

/-- Models `WhatsAppSessionManager.delete_category` (src/main.py:1006-1048), with
the confirmation dialog answered Yes.  Re-links every archive, then
removes the category. -/
def delete_category (c : Catalog) (category_index : Nat) : Catalog :=
  if category_index ≥ c.categories.length then c
  else
    { categories := c.categories.eraseIdx category_index
      archives := c.archives.map (relinkAfterDelete category_index) }

/-- Models `WhatsAppSessionManager.rename_category` (src/main.py:983-1004), with
the input dialog returning `name`.  No-op when the index is out of range,
the name is empty or unchanged, or another category already has it. -/
def rename_category (c : Catalog) (category_index : Nat) (name : String) : Catalog :=
  if h : category_index < c.categories.length then
    if name ≠ "" ∧ name ≠ (c.categories.get ⟨category_index, h⟩).name then
      if c.categories.any fun cat => cat.name = name then c
      else
        { c with categories :=
            c.categories.modify (fun cat => { cat with name := name }) category_index }
    else c
  else c

/-- Models `WhatsAppSessionManager.add_category` (src/main.py:963-981) with the
dialog returning `name`; `now` is `time.time()`. -/
def add_category (c : Catalog) (name : String) (now : Nat) : Catalog :=
  if name = "" then c
  else if c.categories.any fun cat => cat.name = name then c
  else { c with categories := c.categories ++ [⟨name, now⟩] }

/-- Models `WhatsAppSessionManager.move_archive_to_category` (src/main.py:1050-1064). -/
def move_archive_to_category (c : Catalog) (archive_index : Nat)
    (category_index : Option Nat) : Catalog :=
  if archive_index ≥ c.archives.length then c
  else
    match category_index with
    | some ci =>
      if ci ≥ c.categories.length then c
      else
        { c with
          archives := c.archives.modify
              (fun a => { a with category_index := some ci }) archive_index }
    | none =>
      { c with
        archives := c.archives.modify
            (fun a => { a with category_index := none }) archive_index }

/-!
Ingestion entry points.  The catalog is mutated only in the
`extraction_finished` slot (src/main.py:872-904) after a worker reaches a
terminal state; the entry points themselves only validate and launch.
Each entry point is modelled together with the commit that follows a
successful worker run, so rejection leaves the catalog visibly unchanged.
-/

/-- Outcome of one ingestion request. -/
inductive IngestOutcome where
  | rejectedUnreadable
  | rejectedDuplicate
  | workerFailed
  | cancelled
  | added
deriving DecidableEq, Repr

/-- Models `os.path.splitext(s)[0]`: drops the extension after the last dot,
unless every character before that dot is itself a dot. -/
def splitextBase (s : String) : String :=
  let cs := s.toList
  let good := (List.range cs.length).filter fun i =>
    cs.getD i ' ' = '.' && (List.range i).any fun j => !(cs.getD j ' ' = '.')
  match good.getLast? with
  | some i => String.mk (cs.take i)
  | none => s

/-- Models `sessions[0]['path'].replace('\\' + sessions[0]['name'], '')`
(src/main.py:877) on a component path: every non-leading component equal
to the session name is preceded by a backslash and hence removed. -/
def stripSessName (p : FPath) (nm : String) : FPath :=
  match p with
  | [] => []
  | h :: t => h :: t.filter fun comp => comp ≠ nm

/-- Models `WhatsAppSessionManager.extraction_finished` (src/main.py:872-904):
appends the new archive entry and persists. -/
def extraction_finished (c : Catalog) (sessions : List ASession)
    (archive_name : String) (archive_path : FPath)
    (current_category : Option Nat) : Catalog :=
  let extracted : FPath :=
    match sessions.head? with
    | some s => stripSessName s.path s.name
    | none => []
  { c with archives := c.archives ++
      [{ name := archive_name, path := archive_path, extracted_path := extracted,
         sessions := sessions, category_index := current_category }] }

/-- Models `WhatsAppSessionManager.process_archive` (src/main.py:762-835) composed
with the terminal worker outcome `wres` (`none` = worker error, `some ss` =
worker finished with sessions `ss`, committed by `extraction_finished`).
`readable` models `os.access(archive_path, os.R_OK)`. -/
def process_archive (c : Catalog) (readable : Bool) (archive_path : FPath)
    (current_category : Option Nat) (wres : Option (List ASession)) :
    Catalog × IngestOutcome :=
  if readable = false then (c, .rejectedUnreadable)
  else if c.archives.any fun a => a.path = archive_path then (c, .rejectedDuplicate)
  else
    match wres with
    | none => (c, .workerFailed)
    | some ss =>
      (extraction_finished c ss (bname archive_path) archive_path current_category, .added)

/-- Models `WhatsAppSessionManager.process_folder` (src/main.py:837-867) composed
with the terminal worker outcome, as for `process_archive` (no readability
pre-check in this entry point). -/
def process_folder (c : Catalog) (folder_path : FPath)
    (current_category : Option Nat) (wres : Option (List ASession)) :
    Catalog × IngestOutcome :=
  if c.archives.any fun a => a.path = folder_path then (c, .rejectedDuplicate)
  else
    match wres with
    | none => (c, .workerFailed)
    | some ss =>
      (extraction_finished c ss (bname folder_path) folder_path current_category, .added)

/-- Models `WhatsAppSessionManager.process_single_session_archive`
(src/main.py:1590-1729).  `extractionOk` models `extract_with_7zip`
succeeding, `foundProfile` the first `os.walk` root classifying as a
profile, `confirmKeep` the user's answer when no profile structure was
found. -/
def process_single_session_archive (c : Catalog) (archive_path : FPath)
    (current_category : Option Nat) (extractionOk : Bool)
    (foundProfile : Option FPath) (confirmKeep : Bool) : Catalog × IngestOutcome :=
  if c.archives.any fun a => a.path = archive_path then (c, .rejectedDuplicate)
  else
    let archive_basename := splitextBase (bname archive_path)
    let temp_dir := archive_path.dropLast ++ ["extracted_single_" ++ archive_basename]
    if extractionOk = false then (c, .workerFailed)
    else
      match foundProfile with
      | none =>
        if confirmKeep = false then (c, .cancelled)
        else
          ({ c with archives := c.archives ++
              [{ name := "Сессия из архива: " ++ archive_basename,
                 path := archive_path, extracted_path := temp_dir,
                 sessions := [⟨archive_basename, temp_dir⟩],
                 category_index := current_category,
                 is_single_session := true, is_unpacked_archive := true }] }, .added)
      | some session_path =>
        ({ c with archives := c.archives ++
            [{ name := "Сессия из архива: " ++ archive_basename,
               path := archive_path, extracted_path := temp_dir,
               sessions := [⟨archive_basename, session_path⟩],
               category_index := current_category,
               is_single_session := true, is_unpacked_archive := true }] }, .added)

/-!
Persistence (src/main.py:606-637): `save_data` dumps
`{'categories': ..., 'archives': ...}` as JSON; `load_data` reads it back
with `.get('categories', [])` / `.get('archives', [])`, and a missing file
leaves the empty catalog.  The JSON text layer is modelled at the level of
JSON values.
-/

/-- JSON values (the image of `json.dump` / `json.load`). -/
inductive Json where
  | null
  | jbool (b : Bool)
  | jnum (n : Nat)
  | jstr (s : String)
  | jarr (xs : List Json)
  | jobj (kvs : List (String × Json))

/-- Object field lookup. -/
def jlookup (kvs : List (String × Json)) (k : String) : Option Json :=
  (kvs.find? fun kv => kv.1 = k).map (·.2)

def asStr : Json → Option String
  | .jstr s => some s
  | _ => none

def asNum : Json → Option Nat
  | .jnum n => some n
  | _ => none

def asBool : Json → Option Bool
  | .jbool b => some b
  | _ => none

def asArr : Json → Option (List Json)
  | .jarr xs => some xs
  | _ => none

/-- Decodes every element of a JSON array (`none` as soon as one element
fails). -/
def decListJ {α : Type} (g : Json → Option α) : List Json → Option (List α)
  | [] => some []
  | j :: rest =>
    match g j, decListJ g rest with
    | some x, some xs => some (x :: xs)
    | _, _ => none

def encFPath (p : FPath) : Json := .jarr (p.map .jstr)

def decFPath (j : Json) : Option FPath := asArr j >>= decListJ asStr

def encCategory (c : Category) : Json :=
  .jobj [("name", .jstr c.name), ("created_at", .jnum c.created_at)]

def decCategory : Json → Option Category
  | .jobj kvs =>
    match jlookup kvs "name", jlookup kvs "created_at" with
    | some (.jstr n), some (.jnum t) => some ⟨n, t⟩
    | _, _ => none
  | _ => none

def encASession (s : ASession) : Json :=
  .jobj [("name", .jstr s.name), ("path", encFPath s.path)]

def decASession : Json → Option ASession
  | .jobj kvs =>
    match jlookup kvs "name", jlookup kvs "path" with
    | some (.jstr n), some pj => (decFPath pj).map fun p => ⟨n, p⟩
    | _, _ => none
  | _ => none

def encArchive (a : Archive) : Json :=
  .jobj [("name", .jstr a.name), ("path", encFPath a.path),
         ("extracted_path", encFPath a.extracted_path),
         ("sessions", .jarr (a.sessions.map encASession)),
         ("category_index", match a.category_index with
           | none => .null
           | some n => .jnum n),
         ("is_single_session", .jbool a.is_single_session),
         ("is_unpacked_archive", .jbool a.is_unpacked_archive)]

def decCategoryIdx : Json → Option (Option Nat)
  | .null => some none
  | .jnum n => some (some n)
  | _ => none

def decArchive : Json → Option Archive
  | .jobj kvs => do
    let nm ← jlookup kvs "name" >>= asStr
    let p ← jlookup kvs "path" >>= decFPath
    let ep ← jlookup kvs "extracted_path" >>= decFPath
    let ss ← jlookup kvs "sessions" >>= asArr >>= decListJ decASession
    let ci ← jlookup kvs "category_index" >>= decCategoryIdx
    let iss ← jlookup kvs "is_single_session" >>= asBool
    let iua ← jlookup kvs "is_unpacked_archive" >>= asBool
    some ⟨nm, p, ep, ss, ci, iss, iua⟩
  | _ => none

/-- Models `WhatsAppSessionManager.save_data` (src/main.py:626-637), at
the JSON-value level (`some` = the snapshot file written). -/
def save_data (c : Catalog) : Option Json :=
  some (.jobj [("categories", .jarr (c.categories.map encCategory)),
               ("archives", .jarr (c.archives.map encArchive))])

/-- Models `WhatsAppSessionManager.load_data` (src/main.py:606-624): `none` is
a missing `whatsapp_data.json` (empty catalog); otherwise the two
collections are read with `.get(…, [])` defaults. -/
def load_data (snapshot : Option Json) : Catalog :=
  match snapshot with
  | none => ⟨[], []⟩
  | some j =>
    let cats :=
      match j with
      | .jobj kvs => (jlookup kvs "categories" >>= asArr >>= decListJ decCategory).getD []
      | _ => []
    let archs :=
      match j with
      | .jobj kvs => (jlookup kvs "archives" >>= asArr >>= decListJ decArchive).getD []
      | _ => []
    ⟨cats, archs⟩

/-!
Directory trees for the discovery pipeline.  A `DirT` node carries its
readability, its plain files (name and `os.path.getsize`) and its
subdirectories.  Entries beneath an unreadable directory are invisible
(the directory cannot be traversed), matching both `os.walk` — which
silently skips a directory it cannot list — and `os.path.exists` on paths
passing through it.
-/

inductive DirT where
  | node (rd : Bool) (fls : List (String × Nat)) (subs : List (String × DirT))

def DirT.rdFlag : DirT → Bool
  | .node r _ _ => r

def DirT.fileList : DirT → List (String × Nat)
  | .node _ f _ => f

def DirT.subList : DirT → List (String × DirT)
  | .node _ _ s => s

/-- Names of the immediate subdirectories (the `dirs` of an `os.walk`
triple). -/
def DirT.subNames (t : DirT) : List String := t.subList.map (·.1)

/-- Holds when `os.listdir` produced nothing: no files and no subdirectories. -/
def DirT.isEmptyDir (t : DirT) : Bool := t.fileList.isEmpty && t.subList.isEmpty

/-- What a relative path resolves to inside a tree. -/
inductive FSEnt where
  | dirEnt (d : DirT)
  | fileEnt (sz : Nat)
  | missing

/-- Resolves a relative component path.  Descending below a node requires
that node to be readable (traversal permission). -/
def resolveT (t : DirT) : FPath → FSEnt
  | [] => .dirEnt t
  | n :: rest =>
    if t.rdFlag then
      match t.subList.find? (fun e => e.1 = n) with
      | some e => resolveT e.2 rest
      | none =>
        match t.fileList.find? (fun e => e.1 = n) with
        | some e => if rest.isEmpty then .fileEnt e.2 else .missing
        | none => .missing
    else .missing

/-- Strips `base` off the front of `p` (`none` when `p` is not below
`base`). -/
def stripBase : FPath → FPath → Option FPath
  | [], p => some p
  | _ :: _, [] => none
  | b :: bs, x :: xs => if x = b then stripBase bs xs else none

/-- The `FS` observations induced by a tree `t` mounted at `base`; paths
outside `base` do not exist for the pipeline. -/
def treeFS (base : FPath) (t : DirT) : FS where
  fsExists p :=
    match stripBase base p with
    | some r => match resolveT t r with
      | .missing => false
      | _ => true
    | none => false
  isDir p :=
    match stripBase base p with
    | some r => match resolveT t r with
      | .dirEnt _ => true
      | _ => false
    | none => false
  canRead p :=
    match stripBase base p with
    | some r => match resolveT t r with
      | .dirEnt d => d.rdFlag
      | .fileEnt _ => true
      | .missing => false
    | none => false

/-- One `os.walk` triple: the root path, the subdirectory names and the
files of that root. -/
abbrev WalkFrame := FPath × List String × List (String × Nat)

mutual

/-- Models `os.walk(p)` in top-down order: a readable directory yields its own
triple followed by the walks of its subdirectories in listing order; an
unreadable directory yields nothing (`os.walk` ignores the listing
error). -/
def walkT (p : FPath) : DirT → List WalkFrame
  | .node r f sd =>
    if r then (p, sd.map (·.1), f) :: walkSubs p sd
    else []

def walkSubs (p : FPath) : List (String × DirT) → List WalkFrame
  | [] => []
  | e :: rest => walkT (p ++ [e.1]) e.2 ++ walkSubs p rest

end

/-- ASCII lowercase of one character (`str.lower()` restricted to the
ASCII range, which covers archive-extension matching). -/
def lowerChar (c : Char) : Char :=
  if 65 ≤ c.toNat ∧ c.toNat ≤ 90 then Char.ofNat (c.toNat + 32) else c

/-- ASCII `str.lower()`. -/
def strLower (s : String) : String := String.mk (s.toList.map lowerChar)

/-- Models `s.endswith(suffix)`. -/
def strEndsWith (s suffix : String) : Bool :=
  List.isSuffixOf suffix.toList s.toList

/-- Models `file.lower().endswith(('.zip', '.rar', '.7z'))` (src/main.py:1929). -/
def hasArchiveExt (s : String) : Bool :=
  strEndsWith (strLower s) ".zip" || strEndsWith (strLower s) ".rar" ||
    strEndsWith (strLower s) ".7z"

/-- Step 2 of `ExtractionWorker.run` (src/main.py:1922-1948): every file
with an archive extension and size at least 100 bytes, in walk order. -/
def sessionArchiveSearch (frames : List WalkFrame) : List FPath :=
  frames.flatMap fun fr =>
    (fr.2.2.filter fun fe => hasArchiveExt fe.1 && fe.2 ≥ 100).map fun fe => fr.1 ++ [fe.1]

/-- Step 3 of `ExtractionWorker.run` (src/main.py:1951-1990): for each walk
root whose depth below `sourceDir` is at most 3, classify each readable
subdirectory; profiles become sessions named after the directory.  The
depth of a root is the number of separators of its path relative to
`sourceDir` (`root.replace(source_dir, '').count(os.sep)`), i.e. its
component count below `sourceDir`. -/
def chromeProfileSearch (fs : FS) (sourceDir : FPath) (frames : List WalkFrame) :
    List ASession :=
  frames.flatMap fun fr =>
    if fr.1.length - sourceDir.length > 3 then []
    else
      fr.2.1.filterMap fun dn =>
        let dp := fr.1 ++ [dn]
        if fs.canRead dp = false then none
        else if (analyze_session_folder fs dp).is_chrome_profile then some ⟨dn, dp⟩
        else none

/-- The inner search of step 4 (src/main.py:2038-2055): the first
directory in walk order of the extracted session directory that classifies
as a profile. -/
def firstProfileDir (fs : FS) (sdir : FPath) (t : DirT) : Option FPath :=
  (walkT sdir t).findSome? fun fr =>
    fr.2.1.findSome? fun dn =>
      let dp := fr.1 ++ [dn]
      if (analyze_session_folder fs dp).is_chrome_profile then some dp else none

/-- Models `session['path'] = dir_path` applied to the first session whose name
matches (src/main.py:2049-2053). -/
def updateFirstPath : List ASession → String → FPath → List ASession
  | [], _, _ => []
  | s :: rest, nm, dp =>
    if s.name = nm then { s with path := dp } :: rest
    else s :: updateFirstPath rest nm dp

/-- Step 4 of `ExtractionWorker.run` (src/main.py:2000-2070): extract each
candidate in discovery order into `tempDir/<base name>`; a failed
extraction is appended to the failure list and skipped (no progress
emission); a successful one appends a session, optionally re-points its
path at the first profile directory found inside, and emits progress
`int(40 + (i+1)/total*60)`.  Returns (sessions, failed archives, emitted
progress values). -/
def step4Loop (extract : FPath → Option DirT) (tempDir : FPath) (total : Nat) :
    List FPath → Nat → List ASession → List FPath → List Nat →
    List ASession × List FPath × List Nat
  | [], _, ss, fl, ps => (ss, fl, ps)
  | c :: rest, i, ss, fl, ps =>
    match extract c with
    | none => step4Loop extract tempDir total rest (i + 1) ss (fl ++ [c]) ps
    | some t =>
      let nm := splitextBase (bname c)
      let sdir := tempDir ++ [nm]
      let ss1 := ss ++ [⟨nm, sdir⟩]
      let sfs := treeFS sdir t
      let ss2 :=
        if (analyze_session_folder sfs sdir).is_chrome_profile then ss1
        else
          match firstProfileDir sfs sdir t with
          | some dp => updateFirstPath ss1 nm dp
          | none => ss1
      step4Loop extract tempDir total rest (i + 1) ss2 fl (ps ++ [40 + (i + 1) * 60 / total])

/-- The progress values the nested-extraction loop emits from candidate
index `i` on: one value `int(40 + (j+1)/total*60)` per successful
extraction, in order. -/
def step4ProgressList (e : FPath → Option DirT) (total : Nat) :
    List FPath → Nat → List Nat
  | [], _ => []
  | c :: rest, i =>
    match e c with
    | none => step4ProgressList e total rest (i + 1)
    | some _ => (40 + (i + 1) * 60 / total) :: step4ProgressList e total rest (i + 1)

/-- Notifications a worker run emits (`progress`, `finished`, `error`
signals of `ExtractionWorker`, src/main.py:1825-1827). -/
inductive Event where
  | progress (n : Nat)
  | finished (sessions : List ASession) (archiveName : String) (archivePath : FPath)
  | errorOut (msg : String)
deriving DecidableEq, Repr

/-- Returns `true` for the terminal notifications (`finished` / `error`). -/
def Event.isTerminal : Event → Bool
  | .progress _ => false
  | _ => true

/-- The progress values of a trace, in emission order. -/
def progressVals (tr : List Event) : List Nat :=
  tr.filterMap fun e =>
    match e with
    | .progress n => some n
    | _ => none

/-- The input handed to `ExtractionWorker.run`.  For an archive the flags
model the existence / readability / `isfile` pre-checks and `extracted`
the outer `extract_with_7zip` result (`none` = the tool raised, `some t` =
the contents of `temp_dir` afterwards).  For a folder the tree is the
folder's contents. -/
inductive WSource where
  | archiveSrc (ex rd isf : Bool) (extracted : Option DirT)
  | folderSrc (ex isd : Bool) (tree : DirT)

/-- Events of step 3 (src/main.py:1983-1998): sessions found by the
nested profile search, or the generic error when there are none. -/
def profSearchEvents (profs : List ASession) (srcName : String) (srcPath : FPath) :
    List Event :=
  if profs.isEmpty then
    [.errorOut "Не найдено архивов сессий (ZIP, RAR или 7Z) или профилей Chrome"]
  else [.progress 100, .finished profs srcName srcPath]

/-- Events following the nested-extraction loop (src/main.py:2060-2086):
the loop's progress emissions, then either the aggregated failure error
(when no session resulted) or the final progress and success. -/
def step4Events (r : List ASession × List FPath × List Nat)
    (srcName : String) (srcPath : FPath) : List Event :=
  r.2.2.map Event.progress ++
    (if r.1.isEmpty then
      [.errorOut (if r.2.1.isEmpty then "Не удалось найти или распаковать архивы сессий"
        else "Не удалось распаковать ни одного архива сессии")]
    else [.progress 100, .finished r.1 srcName srcPath])

/-- Steps 1-6 shared by both source kinds (src/main.py:1906-2086), from
the root-profile check onwards.  `sourceDir` is `temp_dir` for an archive
input and the folder itself otherwise; `t` is its content tree. -/
def commonPhase (srcPath tempDir sourceDir : FPath) (t : DirT)
    (extract : FPath → Option DirT) : List Event :=
  if (analyze_session_folder (treeFS sourceDir t) sourceDir).is_chrome_profile then
    [.progress 100, .finished [⟨bname sourceDir, sourceDir⟩] (bname srcPath) srcPath]
  else if (sessionArchiveSearch (walkT sourceDir t)).isEmpty then
    Event.progress 40 ::
      profSearchEvents
        (chromeProfileSearch (treeFS sourceDir t) sourceDir (walkT sourceDir t))
        (bname srcPath) srcPath
  else
    Event.progress 40 ::
      step4Events
        (step4Loop extract tempDir (sessionArchiveSearch (walkT sourceDir t)).length
          (sessionArchiveSearch (walkT sourceDir t)) 0 [] [] [])
        (bname srcPath) srcPath

/-- Models `ExtractionWorker.run` (src/main.py:1836-2091): the full notification
trace of one pipeline run. -/
def workerRun (srcPath tempDir : FPath) (src : WSource)
    (extract : FPath → Option DirT) : List Event :=
  match src with
  | .archiveSrc ex rd isf extracted =>
    Event.progress 5 ::
      (if ex = false then [.errorOut "Архив не найден"]
      else if rd = false then [.errorOut "Нет прав на чтение архива"]
      else if isf = false then [.errorOut "Указанный путь не является файлом"]
      else
        match extracted with
        | none => [.errorOut "Ошибка при распаковке архива"]
        | some t =>
          Event.progress 30 ::
            (if t.isEmptyDir then [.errorOut "Архив пуст или произошла ошибка при распаковке"]
            else commonPhase srcPath tempDir tempDir t extract))
  | .folderSrc ex isd t =>
    if ex = false then [.errorOut "Папка не найдена"]
    else if isd = false then [.errorOut "Указанный путь не является директорией"]
    else Event.progress 30 :: commonPhase srcPath tempDir srcPath t extract

/-- The per-candidate failure list of step 4 for a given run configuration
(the worker's local `failed_archives`, src/main.py:2002): the failures of
`step4Loop` over the discovered candidates. -/
def runFailures (sourceDir tempDir : FPath) (t : DirT)
    (extract : FPath → Option DirT) : List FPath :=
  let cands := sessionArchiveSearch (walkT sourceDir t)
  (step4Loop extract tempDir cands.length cands 0 [] [] []).2.1

/-- Models `WhatsAppSessionManager.process_single_session` (src/main.py:1482-1550):
promotes a folder to a one-session archive.  The duplicate check scans the
*session* paths of existing archives, not the archive source paths. -/
def process_single_session (c : Catalog) (session_path : FPath)
    (current_category : Option Nat) : Catalog × IngestOutcome :=
  if c.archives.any fun a => a.sessions.any fun s => s.path = session_path then
    (c, .rejectedDuplicate)
  else
    let folder_name := bname session_path
    ({ c with archives := c.archives ++
        [{ name := "Сессия: " ++ folder_name, path := session_path,
           extracted_path := session_path,
           sessions := [⟨folder_name, session_path⟩],
           category_index := current_category, is_single_session := true }] }, .added)

/-!
Concrete fixtures used by witnesses and counterexamples.
-/

/-- A one-directory tree that classifies as a profile (a `Cookies` marker
file at its root). -/
def profTree : DirT := .node true [("Cookies", 10)] []

/-- Input folder holding three nested archives. -/
def c2treeA : DirT := .node true [("a.zip", 500), ("b.zip", 500), ("c.zip", 500)] []

/-- Input folder holding the same archives except the corrupt one. -/
def c2treeB : DirT := .node true [("a.zip", 500), ("c.zip", 500)] []

/-- Extraction oracle: `b.zip` is corrupt, the others extract to a
profile. -/
def c2extract : FPath → Option DirT := fun p =>
  if p = ["src", "a.zip"] then some profTree
  else if p = ["src", "c.zip"] then some profTree
  else none

/-- A profile directory four levels below the working root and nothing
else. -/
def c6tree : DirT :=
  .node true []
    [("a", .node true []
      [("b", .node true []
        [("c", .node true [] [("d", profTree)])])])]

/-- Input folder holding a single nested archive. -/
def c7tree : DirT := .node true [("a.zip", 500)] []

/-- Extraction oracle for the single-archive run. -/
def c7extract : FPath → Option DirT := fun p =>
  if p = ["src", "a.zip"] then some profTree else none

/-- A catalog holding one folder-ingested archive whose source path is
`["F"]` while its only session lives at `["F", "S"]`. -/
def c3cat : Catalog :=
  ⟨[], [{ name := "F", path := ["F"], extracted_path := ["ex"],
          sessions := [⟨"S", ["F", "S"]⟩], category_index := none }]⟩

/-- A two-category, one-archive catalog. -/
def c1cat : Catalog :=
  ⟨[⟨"work", 1⟩, ⟨"play", 2⟩],
   [{ name := "x", path := ["x"], extracted_path := ["ex"],
      sessions := [⟨"s", ["x", "s"]⟩], category_index := some 0 },
    { name := "y", path := ["y"], extracted_path := ["ey"],
      sessions := [⟨"t", ["y", "t"]⟩], category_index := some 1 }]⟩

/-!
Theorems.  Helper lemmas first, then one theorem per claim (with a
witness where the theorem carries hypotheses).
-/

/-- A directory that classifies as a profile passed all three access
guards. -/
theorem analyze_profile_guards (fs : FS) (p : FPath)
    (h : (analyze_session_folder fs p).is_chrome_profile = true) :
    fs.fsExists p = true ∧ fs.isDir p = true ∧ fs.canRead p = true := by
  by_cases h1 : fs.fsExists p = false
  · simp [analyze_session_folder, h1] at h
  · by_cases h2 : fs.isDir p = false
    · simp [analyze_session_folder, h2] at h
    · by_cases h3 : fs.canRead p = false
      · simp [analyze_session_folder, h3] at h
      · simp at h1 h2 h3
        exact ⟨h1, h2, h3⟩

/-- C4: classify on the three literal scenarios behaves as specified: a
directory named `Default` containing a file `Cookies` is a profile with
`profileRoot` the parent directory; a directory containing a `Default`
subdirectory with no marker files inside it is not a profile but has the
marker subfolder recorded; an empty directory is not a profile. -/
theorem c4_classification_scenarios :
    analyze_session_folder c4fs1 ["root", "Default"] =
      ⟨true, true, some ["root"]⟩ ∧
    analyze_session_folder c4fs2 ["top"] = ⟨false, true, some ["top"]⟩ ∧
    analyze_session_folder c4fs3 ["empty"] = ⟨false, false, none⟩ := by
  refine ⟨by decide, by decide, by decide⟩

/-- C9: a path that does not exist, is not a directory, or is not
readable classifies as not-a-profile, with no marker subfolder and a null
profile root; the model function is total, so classification never
raises. -/
theorem c9_unreadable_not_profile (fs : FS) (p : FPath)
    (h : fs.fsExists p = false ∨ fs.isDir p = false ∨ fs.canRead p = false) :
    analyze_session_folder fs p = ⟨false, false, none⟩ := by
  unfold analyze_session_folder
  rcases h with h | h | h <;> simp [h]

/-- C9 witness: a nonexistent path on the empty filesystem. -/
theorem c9_witness :
    analyze_session_folder (fsOfLists [] [] []) ["ghost"] = ⟨false, false, none⟩ :=
  c9_unreadable_not_profile (fsOfLists [] [] []) ["ghost"] (Or.inl (by decide))

/-- C10: for a readable directory not itself named `Default`, with no
`Default` subdirectory containing a marker file, directly containing none
of the five marker filenames but containing a `Local Storage` entry,
classification is a profile exactly when `Local Storage/leveldb` exists:
the alternative marker-file disjunct of the last step is always false
there, because a nonempty marker list would already have returned at the
earlier step. -/
theorem c10_leveldb_decides (fs : FS) (p : FPath)
    (hex : fs.fsExists p = true) (hdir : fs.isDir p = true)
    (hrd : fs.canRead p = true) (hname : bname p ≠ "Default")
    (hdef : (fs.fsExists (p ++ ["Default"]) && fs.isDir (p ++ ["Default"])) = true →
      ∀ f ∈ chrome_profile_files, fs.fsExists (p ++ ["Default", f]) = false)
    (hmark : ∀ f ∈ chrome_profile_files, fs.fsExists (p ++ [f]) = false)
    (hls : fs.fsExists (p ++ ["Local Storage"]) = true) :
    (analyze_session_folder fs p).is_chrome_profile =
      fs.fsExists (p ++ ["Local Storage", "leveldb"]) := by
  have m1 := hmark "Cookies" (by simp [chrome_profile_files])
  have m2 := hmark "Web Data" (by simp [chrome_profile_files])
  have m3 := hmark "History" (by simp [chrome_profile_files])
  have m4 := hmark "Login Data" (by simp [chrome_profile_files])
  have m5 := hmark "Preferences" (by simp [chrome_profile_files])
  unfold analyze_session_folder
  simp only [hex, hdir, hrd]
  by_cases hdfc : (fs.fsExists (p ++ ["Default"]) && fs.isDir (p ++ ["Default"])) = true
  · have d1 := hdef hdfc "Cookies" (by simp [chrome_profile_files])
    have d2 := hdef hdfc "Web Data" (by simp [chrome_profile_files])
    have d3 := hdef hdfc "History" (by simp [chrome_profile_files])
    have d4 := hdef hdfc "Login Data" (by simp [chrome_profile_files])
    have d5 := hdef hdfc "Preferences" (by simp [chrome_profile_files])
    simp [chrome_profile_files, m1, m2, m3, m4, m5, d1, d2, d3, d4, d5, hname, hdfc, hls]
    cases h : fs.fsExists (p ++ ["Local Storage", "leveldb"]) <;> simp [h]
  · simp only [Bool.not_eq_true] at hdfc
    simp [chrome_profile_files, m1, m2, m3, m4, m5, hname, hdfc, hls]
    cases h : fs.fsExists (p ++ ["Local Storage", "leveldb"]) <;> simp [h]

/-- C10 witness: a directory with only a `Local Storage/leveldb` cache. -/
theorem c10_witness :
    (analyze_session_folder
      (fsOfLists [["d"], ["d", "Local Storage"], ["d", "Local Storage", "leveldb"]] [] [])
      ["d"]).is_chrome_profile =
    (fsOfLists [["d"], ["d", "Local Storage"], ["d", "Local Storage", "leveldb"]] [] []
      ).fsExists ["d", "Local Storage", "leveldb"] :=
  c10_leveldb_decides _ ["d"] (by decide) (by decide) (by decide) (by decide)
    (fun h => by simp at h; exact absurd h.1 (by decide))
    (by decide) (by decide)

/-- C3 counterexample: the catalog `c3cat` already contains an archive
with source path `["F"]`, yet the single-session promotion entry point
(`process_single_session`, reachable from drag-and-drop via
`process_path`) accepts a request for that very path — its duplicate
check only scans session paths — and mutates the catalog. -/
theorem c3_counterexample :
    (c3cat.archives.any fun a => a.path = ["F"]) = true ∧
    (process_single_session c3cat ["F"] none).2 = .added ∧
    (process_single_session c3cat ["F"] none).1 ≠ c3cat := by decide

/-- C3 amended: a request whose source path equals an existing archive's
source path is rejected with the catalog unchanged by the three entry
points that check source paths: `process_archive` (after its readability
pre-check), `process_folder` and `process_single_session_archive`. -/
theorem c3_duplicate_rejected (c : Catalog) (p : FPath)
    (hdup : (c.archives.any fun a => a.path = p) = true) :
    (∀ r cur w, process_archive c r p cur w =
        (c, if r then .rejectedDuplicate else .rejectedUnreadable)) ∧
    (∀ cur w, process_folder c p cur w = (c, .rejectedDuplicate)) ∧
    (∀ cur ok fp conf, process_single_session_archive c p cur ok fp conf =
        (c, .rejectedDuplicate)) := by
  refine ⟨fun r cur w => ?_, fun cur w => ?_, fun cur ok fp conf => ?_⟩
  · cases r <;> simp [process_archive, hdup]
  · simp [process_folder, hdup]
  · simp [process_single_session_archive, hdup]

/-- C3 witness: the duplicate source path `["F"]` of `c3cat` is rejected
by all three source-path-checking entry points. -/
theorem c3_witness :
    process_archive c3cat true ["F"] none none = (c3cat, .rejectedDuplicate) ∧
    process_folder c3cat ["F"] none none = (c3cat, .rejectedDuplicate) ∧
    process_single_session_archive c3cat ["F"] none true none true =
      (c3cat, .rejectedDuplicate) := by
  have h := c3_duplicate_rejected c3cat ["F"] (by decide)
  exact ⟨by simpa using h.1 true none none, h.2.1 none none, h.2.2 none true none true⟩

/-- C8: renaming category `i` to a nonempty name unique among the other
categories updates only that category's `name` (its `created_at`, its
position, every other category, and all archives are untouched); renaming
to its current name is a no-op, and renaming to another category's name is
rejected. -/
theorem c8_rename_category_frame (c : Catalog) (i : Nat) (nm : String)
    (hi : i < c.categories.length) (hnm : nm ≠ "") :
    ((∀ j, (hj : j < c.categories.length) → j ≠ i →
        (c.categories.get ⟨j, hj⟩).name ≠ nm) →
      (rename_category c i nm).archives = c.archives ∧
      (rename_category c i nm).categories.length = c.categories.length ∧
      (rename_category c i nm).categories[i]? =
        (c.categories[i]?).map (fun cat => { cat with name := nm }) ∧
      ∀ j, j ≠ i → (rename_category c i nm).categories[j]? = c.categories[j]?) ∧
    (nm = (c.categories.get ⟨i, hi⟩).name → rename_category c i nm = c) ∧
    ((∃ j, ∃ hj : j < c.categories.length, j ≠ i ∧
        (c.categories.get ⟨j, hj⟩).name = nm) →
      rename_category c i nm = c) := by
  refine ⟨fun huniq => ?_, fun heq => ?_, fun hdup => ?_⟩
  · by_cases heq : nm = (c.categories.get ⟨i, hi⟩).name
    · have hre : rename_category c i nm = c := by
        unfold rename_category
        rw [dif_pos hi, if_neg (fun hc => hc.2 heq)]
      rw [hre]
      refine ⟨rfl, rfl, ?_, fun j hj => rfl⟩
      rw [List.getElem?_eq_getElem hi, Option.map_some']
      congr 1
      have hnm' : nm = c.categories[i].name := heq
      rw [hnm']
    · have hany : (c.categories.any fun cat => cat.name = nm) = false := by
        rw [List.any_eq_false]
        intro x hx
        rcases List.mem_iff_get.mp hx with ⟨⟨j, hj⟩, rfl⟩
        by_cases hji : j = i
        · subst hji
          simpa using fun h => heq h.symm
        · simpa using huniq j hj hji
      have hr : rename_category c i nm =
          { c with categories :=
              c.categories.modify (fun cat => { cat with name := nm }) i } := by
        unfold rename_category
        rw [dif_pos hi, if_pos ⟨hnm, fun h => heq h⟩, if_neg (by simp [hany])]
      rw [hr]
      refine ⟨rfl, List.length_modify .., ?_, fun j hj => ?_⟩
      · rw [List.getElem?_modify]
        cases hx : c.categories[i]? <;> simp [hx]
      · rw [List.getElem?_modify]
        have hij : ¬ i = j := fun h => hj h.symm
        cases hx : c.categories[j]? <;> simp [hx, hij]
  · unfold rename_category
    rw [dif_pos hi, if_neg (fun hc => hc.2 heq)]
  · rcases hdup with ⟨j, hj, hji, hname⟩
    by_cases heq : nm = (c.categories.get ⟨i, hi⟩).name
    · unfold rename_category
      rw [dif_pos hi, if_neg (fun hc => hc.2 heq)]
    · have hany : (c.categories.any fun cat => cat.name = nm) = true := by
        rw [List.any_eq_true]
        exact ⟨c.categories.get ⟨j, hj⟩, List.get_mem .., by simpa using hname⟩
      unfold rename_category
      rw [dif_pos hi, if_pos ⟨hnm, fun h => heq h⟩, if_pos hany]

/-- C8 witness: renaming the first category of `c1cat` to the fresh name
`"rest"` keeps `created_at`, the other category and the archives. -/
theorem c8_witness :
    (rename_category c1cat 0 "rest").archives = c1cat.archives ∧
    (rename_category c1cat 0 "rest").categories[0]? =
      (c1cat.categories[0]?).map (fun cat => { cat with name := "rest" }) := by
  have h := (c8_rename_category_frame c1cat 0 "rest" (by decide) (by decide)).1
    (by decide)
  exact ⟨h.1, h.2.2.1⟩

/-- Re-linking never touches the non-reference fields of an archive. -/
theorem relinkAfterDelete_fields (i : Nat) (a : Archive) :
    (relinkAfterDelete i a).name = a.name ∧
    (relinkAfterDelete i a).path = a.path ∧
    (relinkAfterDelete i a).extracted_path = a.extracted_path ∧
    (relinkAfterDelete i a).sessions = a.sessions := by
  unfold relinkAfterDelete
  rcases a with ⟨an, ap, ae, as, aci, f1, f2⟩
  cases aci with
  | none => exact ⟨rfl, rfl, rfl, rfl⟩
  | some ci =>
    by_cases h1 : ci = i <;> by_cases h2 : ci > i <;> simp [h1, h2]

/-- C1: deleting category `i` (referenced by archives under the positional
invariant) removes exactly that category, re-links each archive of that
category to "no category", deletes no archive and no session, and leaves
every remaining category reference resolving to the same live category
— zero dangling references. -/
theorem c1_delete_category_integrity (c : Catalog) (i : Nat)
    (hi : i < c.categories.length)
    (hinv : (c.archives.all fun a =>
      a.category_index.all fun ci => decide (ci < c.categories.length)) = true) :
    (delete_category c i).categories.length + 1 = c.categories.length ∧
    (∀ j : Nat, j < i → (delete_category c i).categories[j]? = c.categories[j]?) ∧
    (∀ j : Nat, i ≤ j → (delete_category c i).categories[j]? = c.categories[j + 1]?) ∧
    (delete_category c i).archives.length = c.archives.length ∧
    (∀ k : Nat, ((delete_category c i).archives[k]?).map
        (fun a => (a.name, a.path, a.extracted_path, a.sessions)) =
      (c.archives[k]?).map fun a => (a.name, a.path, a.extracted_path, a.sessions)) ∧
    (∀ (k : Nat) (a a' : Archive), c.archives[k]? = some a →
      (delete_category c i).archives[k]? = some a' →
      a.category_index = some i → a'.category_index = none) ∧
    (∀ (k : Nat) (a a' : Archive) (ci : Nat), c.archives[k]? = some a →
      (delete_category c i).archives[k]? = some a' →
      a.category_index = some ci → ci ≠ i →
      ∃ ci', a'.category_index = some ci' ∧
        ci' < (delete_category c i).categories.length ∧
        (delete_category c i).categories[ci']? = c.categories[ci]?) := by
  have hinv' : ∀ a ∈ c.archives, ∀ ci, a.category_index = some ci →
      ci < c.categories.length := by
    intro a ha ci hci
    have h := List.all_eq_true.mp hinv a ha
    rw [hci] at h
    simpa using h
  have hd : delete_category c i =
      { categories := c.categories.eraseIdx i
        archives := c.archives.map (relinkAfterDelete i) } := by
    unfold delete_category
    rw [if_neg (by omega)]
  rw [hd]
  have hlen : (c.categories.eraseIdx i).length = c.categories.length - 1 := by
    rw [List.length_eraseIdx]
    simp [hi]
  have hlow : ∀ j, j < i → (c.categories.eraseIdx i)[j]? = c.categories[j]? := by
    intro j hj
    rw [List.eraseIdx_eq_take_drop_succ, List.getElem?_append, List.getElem?_take]
    have hti : (List.take i c.categories).length = i := by
      rw [List.length_take]
      omega
    rw [if_pos (by omega), if_pos hj]
  have hhigh : ∀ j, i ≤ j → (c.categories.eraseIdx i)[j]? = c.categories[j + 1]? := by
    intro j hj
    rw [List.eraseIdx_eq_take_drop_succ, List.getElem?_append]
    have hti : (List.take i c.categories).length = i := by
      rw [List.length_take]
      omega
    rw [if_neg (by omega), List.getElem?_drop]
    congr 1
    omega
  refine ⟨by simp [hlen]; omega, hlow, hhigh, by simp, ?_, ?_, ?_⟩
  · intro k
    rw [List.getElem?_map]
    cases hx : c.archives[k]? with
    | none => rfl
    | some a =>
      obtain ⟨e1, e2, e3, e4⟩ := relinkAfterDelete_fields i a
      simp [e1, e2, e3, e4]
  · intro k a a' hk hk' hci
    rw [List.getElem?_map, hk] at hk'
    have ha' : a' = relinkAfterDelete i a := by
      simpa using hk'.symm
    rw [ha']
    unfold relinkAfterDelete
    rw [hci]
    simp
  · intro k a a' ci hk hk' hci hne
    rw [List.getElem?_map, hk] at hk'
    have ha' : a' = relinkAfterDelete i a := by
      simpa using hk'.symm
    have hmem : a ∈ c.archives := by
      have := List.getElem?_eq_some_iff.mp hk
      rcases this with ⟨hlt, hget⟩
      exact hget ▸ List.getElem_mem hlt
    have hcil : ci < c.categories.length := hinv' a hmem ci hci
    have hra : relinkAfterDelete i a =
        if ci = i then { a with category_index := none }
        else if ci > i then { a with category_index := some (ci - 1) } else a := by
      unfold relinkAfterDelete
      rw [hci]
    rw [ha', hra, if_neg hne]
    by_cases hgt : ci > i
    · rw [if_pos hgt]
      refine ⟨ci - 1, rfl, ?_, ?_⟩
      · show ci - 1 < (c.categories.eraseIdx i).length
        rw [hlen]
        omega
      · show (c.categories.eraseIdx i)[ci - 1]? = c.categories[ci]?
        rw [hhigh (ci - 1) (by omega)]
        congr 1
        omega
    · rw [if_neg hgt]
      refine ⟨ci, hci, ?_, ?_⟩
      · show ci < (c.categories.eraseIdx i).length
        rw [hlen]
        omega
      · show (c.categories.eraseIdx i)[ci]? = c.categories[ci]?
        exact hlow ci (by omega)

/-- C1 witness: deleting the first category of `c1cat`. -/
theorem c1_witness :
    (delete_category c1cat 0).categories.length + 1 = c1cat.categories.length ∧
    (delete_category c1cat 0).archives.length = c1cat.archives.length := by
  have h := c1_delete_category_integrity c1cat 0 (by decide) (by decide)
  exact ⟨h.1, h.2.2.2.1⟩

/-- A pointwise-inverse decoder inverts the encoder on a mapped list. -/
theorem decListJ_roundtrip {α : Type} (f : α → Json) (g : Json → Option α)
    (h : ∀ x, g (f x) = some x) :
    ∀ xs : List α, decListJ g (xs.map f) = some xs := by
  intro xs
  induction xs with
  | nil => rfl
  | cons x rest ih =>
    rw [List.map_cons]
    unfold decListJ
    rw [h x, ih]

theorem decFPath_encFPath (p : FPath) : decFPath (encFPath p) = some p := by
  unfold decFPath encFPath asArr
  simp only [Option.bind_eq_bind, Option.some_bind]
  exact decListJ_roundtrip Json.jstr asStr (fun s => rfl) p

theorem decCategory_encCategory (c : Category) :
    decCategory (encCategory c) = some c := rfl

theorem decASession_encASession (s : ASession) :
    decASession (encASession s) = some s := by
  unfold decASession encASession
  simp [jlookup, List.find?, decFPath_encFPath]

theorem decCategoryIdx_enc (o : Option Nat) :
    decCategoryIdx (match o with | none => Json.null | some n => Json.jnum n) =
      some o := by
  cases o <;> rfl

theorem decArchive_encArchive (a : Archive) :
    decArchive (encArchive a) = some a := by
  unfold decArchive encArchive
  simp [jlookup, List.find?, decFPath_encFPath, decCategoryIdx_enc, asStr, asArr, asBool,
    decListJ_roundtrip encASession decASession decASession_encASession]

/-- C5: saving any catalog and loading the snapshot back yields a
structurally identical catalog (same categories, archives, sessions and
category references), and loading with no snapshot file yields the empty
catalog rather than an error. -/
theorem c5_persistence_roundtrip (c : Catalog) :
    load_data (save_data c) = c ∧ load_data none = ⟨[], []⟩ := by
  constructor
  · unfold load_data save_data
    simp [jlookup, List.find?, asArr,
      decListJ_roundtrip encCategory decCategory decCategory_encCategory,
      decListJ_roundtrip encArchive decArchive decArchive_encArchive]
  · rfl

/-- The progress accumulator of the loop is the input accumulator
followed by the pure progress list. -/
theorem step4Loop_ps_eq (e : FPath → Option DirT) (td : FPath) (total : Nat) :
    ∀ (cs : List FPath) (i : Nat) (ss : List ASession) (fl : List FPath)
      (ps : List Nat),
      (step4Loop e td total cs i ss fl ps).2.2 = ps ++ step4ProgressList e total cs i := by
  intro cs
  induction cs with
  | nil =>
    intro i ss fl ps
    unfold step4Loop step4ProgressList
    simp
  | cons c rest ih =>
    intro i ss fl ps
    unfold step4Loop step4ProgressList
    cases he : e c with
    | none => rw [ih]
    | some t => rw [ih, List.append_assoc, List.singleton_append]

/-- Bounds and monotonicity of the pure progress list. -/
theorem step4ProgressList_spec (e : FPath → Option DirT) (total : Nat) :
    ∀ (cs : List FPath) (i : Nat),
      (∀ x ∈ step4ProgressList e total cs i,
        40 + (i + 1) * 60 / total ≤ x ∧ x ≤ 40 + (i + cs.length) * 60 / total) ∧
      (step4ProgressList e total cs i).Pairwise (· ≤ ·) := by
  intro cs
  induction cs with
  | nil =>
    intro i
    unfold step4ProgressList
    simp
  | cons c rest ih =>
    intro i
    have hdm : ∀ m n : Nat, m ≤ n →
        40 + m * 60 / total ≤ 40 + n * 60 / total := by
      intro m n hmn
      exact Nat.add_le_add_left (Nat.div_le_div_right (by omega)) 40
    have harith : i + 1 + rest.length = i + (rest.length + 1) := by omega
    obtain ⟨ihb, ihm⟩ := ih (i + 1)
    unfold step4ProgressList
    cases he : e c with
    | none =>
      refine ⟨fun x hx => ?_, ihm⟩
      obtain ⟨hl, hr⟩ := ihb x hx
      rw [harith] at hr
      exact ⟨le_trans (hdm (i + 1) (i + 2) (by omega)) hl, by simpa using hr⟩
    | some t =>
      constructor
      · intro x hx
        rcases List.mem_cons.mp hx with rfl | hx
        · refine ⟨le_refl _,
            hdm (i + 1) (i + (c :: rest).length) (by simp only [List.length_cons]; omega)⟩
        · obtain ⟨hl, hr⟩ := ihb x hx
          rw [harith] at hr
          exact ⟨le_trans (hdm (i + 1) (i + 2) (by omega)) hl, by simpa using hr⟩
      · rw [List.pairwise_cons]
        refine ⟨fun x hx => ?_, ihm⟩
        exact le_trans (hdm (i + 1) (i + 2) (by omega)) (ihb x hx).1

theorem filterMap_progressOf (ns : List Nat) :
    List.filterMap
      (fun e => match e with | Event.progress n => some n | _ => none)
      (ns.map Event.progress) = ns := by
  induction ns with
  | nil => rfl
  | cons n rest ih => simp [ih]

theorem progressVals_shape (ns : List Nat) (term : Event)
    (hterm : term.isTerminal = true) :
    progressVals (ns.map Event.progress ++ [term]) = ns := by
  unfold progressVals
  rw [List.filterMap_append, filterMap_progressOf]
  cases term with
  | progress n => simp [Event.isTerminal] at hterm
  | finished s a p => simp
  | errorOut m => simp

/-- A trace of the form progress-prefix then terminal satisfies the
monotonicity-and-terminal-last conclusion. -/
theorem conclusion_of_shape (tr : List Event) (ns : List Nat) (term : Event)
    (h : tr = ns.map Event.progress ++ [term]) (hterm : term.isTerminal = true)
    (hmono : ns.Pairwise (· ≤ ·)) :
    (progressVals tr).Pairwise (· ≤ ·) ∧
    ∃ (pre : List Event) (ev : Event), tr = pre ++ [ev] ∧ ev.isTerminal = true ∧
      ∀ x ∈ pre, x.isTerminal = false := by
  subst h
  refine ⟨by rw [progressVals_shape ns term hterm]; exact hmono,
    ns.map Event.progress, term, rfl, hterm, ?_⟩
  intro x hx
  rcases List.mem_map.mp hx with ⟨n, _, rfl⟩
  rfl

/-- Shape of the events following the nested-extraction loop, given
bounds on its progress emissions. -/
theorem step4Events_shape (r : List ASession × List FPath × List Nat)
    (nm : String) (sp : FPath)
    (h40 : ∀ x ∈ r.2.2, 40 ≤ x) (hub : ∀ x ∈ r.2.2, x ≤ 100)
    (hm : r.2.2.Pairwise (· ≤ ·)) :
    ∃ (ns : List Nat) (term : Event),
      step4Events r nm sp = ns.map Event.progress ++ [term] ∧
      term.isTerminal = true ∧ (∀ x ∈ ns, 40 ≤ x ∧ x ≤ 100) ∧
      ns.Pairwise (· ≤ ·) := by
  unfold step4Events
  by_cases h : r.1.isEmpty
  · rw [if_pos h]
    exact ⟨r.2.2, .errorOut _, rfl, rfl, fun x hx => ⟨h40 x hx, hub x hx⟩, hm⟩
  · rw [if_neg h]
    refine ⟨r.2.2 ++ [100], .finished r.1 nm sp, by simp, rfl, ?_, ?_⟩
    · intro x hx
      rcases List.mem_append.mp hx with hx | hx
      · exact ⟨h40 x hx, hub x hx⟩
      · simp at hx
        omega
    · rw [List.pairwise_append]
      refine ⟨hm, by simp, ?_⟩
      intro x hx y hy
      simp at hy
      subst hy
      exact hub x hx

/-- The shared phase always emits a monotone progress prefix in `[40,100]`
followed by a single terminal notification. -/
theorem commonPhase_shape (srcPath tempDir sourceDir : FPath) (t : DirT)
    (e : FPath → Option DirT) :
    ∃ (ns : List Nat) (term : Event),
      commonPhase srcPath tempDir sourceDir t e = ns.map Event.progress ++ [term] ∧
      term.isTerminal = true ∧ (∀ x ∈ ns, 40 ≤ x ∧ x ≤ 100) ∧
      ns.Pairwise (· ≤ ·) := by
  unfold commonPhase
  by_cases h1 : (analyze_session_folder (treeFS sourceDir t) sourceDir).is_chrome_profile
  · rw [if_pos h1]
    exact ⟨[100], .finished _ _ _, rfl, rfl, by simp, by simp⟩
  · rw [if_neg h1]
    by_cases h2 : (sessionArchiveSearch (walkT sourceDir t)).isEmpty
    · rw [if_pos h2]
      unfold profSearchEvents
      by_cases h3 : (chromeProfileSearch (treeFS sourceDir t) sourceDir
          (walkT sourceDir t)).isEmpty
      · rw [if_pos h3]
        exact ⟨[40], .errorOut _, rfl, rfl, by simp, by simp⟩
      · rw [if_neg h3]
        exact ⟨[40, 100], .finished _ _ _, rfl, rfl, by simp, by simp⟩
    · rw [if_neg h2]
      have htotpos : 0 < (sessionArchiveSearch (walkT sourceDir t)).length := by
        rcases hc : sessionArchiveSearch (walkT sourceDir t) with _ | ⟨x, xs⟩
        · rw [hc] at h2
          simp at h2
        · simp
      have hpseq := step4Loop_ps_eq e tempDir
        (sessionArchiveSearch (walkT sourceDir t)).length
        (sessionArchiveSearch (walkT sourceDir t)) 0 [] [] []
      rw [List.nil_append] at hpseq
      obtain ⟨hbnd0, hmono0⟩ := step4ProgressList_spec e
        (sessionArchiveSearch (walkT sourceDir t)).length
        (sessionArchiveSearch (walkT sourceDir t)) 0
      have hge : ∀ x ∈ (step4Loop e tempDir
          (sessionArchiveSearch (walkT sourceDir t)).length
          (sessionArchiveSearch (walkT sourceDir t)) 0 [] [] []).2.2, 40 ≤ x := by
        intro x hx
        rw [hpseq] at hx
        exact le_trans (Nat.le_add_right 40 _) (hbnd0 x hx).1
      have hub : ∀ x ∈ (step4Loop e tempDir
          (sessionArchiveSearch (walkT sourceDir t)).length
          (sessionArchiveSearch (walkT sourceDir t)) 0 [] [] []).2.2, x ≤ 100 := by
        intro x hx
        rw [hpseq] at hx
        have hx' := (hbnd0 x hx).2
        rw [Nat.zero_add, Nat.mul_comm, Nat.mul_div_cancel 60 htotpos] at hx'
        omega
      have hmono : (step4Loop e tempDir
          (sessionArchiveSearch (walkT sourceDir t)).length
          (sessionArchiveSearch (walkT sourceDir t)) 0 [] [] []).2.2.Pairwise
            (· ≤ ·) := by
        rw [hpseq]
        exact hmono0
      obtain ⟨ns, term, hsh, hterm, hbnd, hm⟩ := step4Events_shape
        (step4Loop e tempDir (sessionArchiveSearch (walkT sourceDir t)).length
          (sessionArchiveSearch (walkT sourceDir t)) 0 [] [] [])
        (bname srcPath) srcPath hge hub hmono
      refine ⟨40 :: ns, term, by simp [hsh], hterm, ?_, ?_⟩
      · intro x hx
        rcases List.mem_cons.mp hx with rfl | hx
        · omega
        · exact hbnd x hx
      · rw [List.pairwise_cons]
        exact ⟨fun x hx => (hbnd x hx).1, hm⟩

/-- C7 amended: over every pipeline run, the emitted progress values are
monotonically non-decreasing (not strictly increasing, see the
counterexample), and the terminal notification is the last notification
of the run. -/
theorem c7_progress_monotone_terminal_last (srcPath tempDir : FPath)
    (src : WSource) (e : FPath → Option DirT) :
    (progressVals (workerRun srcPath tempDir src e)).Pairwise (· ≤ ·) ∧
    ∃ (pre : List Event) (ev : Event),
      workerRun srcPath tempDir src e = pre ++ [ev] ∧ ev.isTerminal = true ∧
      ∀ x ∈ pre, x.isTerminal = false := by
  cases src with
  | archiveSrc ex rd isf extracted =>
    simp only [workerRun]
    by_cases hex : ex = false
    · rw [if_pos hex]
      exact conclusion_of_shape _ [5] (.errorOut _) rfl rfl (by simp)
    · rw [if_neg hex]
      by_cases hrd : rd = false
      · rw [if_pos hrd]
        exact conclusion_of_shape _ [5] (.errorOut _) rfl rfl (by simp)
      · rw [if_neg hrd]
        by_cases hisf : isf = false
        · rw [if_pos hisf]
          exact conclusion_of_shape _ [5] (.errorOut _) rfl rfl (by simp)
        · rw [if_neg hisf]
          cases extracted with
          | none => exact conclusion_of_shape _ [5] (.errorOut _) rfl rfl (by simp)
          | some t =>
            dsimp only
            by_cases hemp : t.isEmptyDir
            · rw [if_pos hemp]
              exact conclusion_of_shape _ [5, 30] (.errorOut _) rfl rfl (by simp)
            · rw [if_neg hemp]
              obtain ⟨ns, term, hsh, hterm, hbnd, hmono⟩ :=
                commonPhase_shape srcPath tempDir tempDir t e
              refine conclusion_of_shape _ (5 :: 30 :: ns) term (by simp [hsh]) hterm ?_
              rw [List.pairwise_cons]
              refine ⟨?_, ?_⟩
              · intro x hx
                rcases List.mem_cons.mp hx with rfl | hx
                · omega
                · have := (hbnd x hx).1
                  omega
              · rw [List.pairwise_cons]
                exact ⟨fun x hx => by have := (hbnd x hx).1; omega, hmono⟩
  | folderSrc ex isd t =>
    simp only [workerRun]
    by_cases hex : ex = false
    · rw [if_pos hex]
      exact conclusion_of_shape _ [] (.errorOut _) rfl rfl (by simp)
    · rw [if_neg hex]
      by_cases hisd : isd = false
      · rw [if_pos hisd]
        exact conclusion_of_shape _ [] (.errorOut _) rfl rfl (by simp)
      · rw [if_neg hisd]
        obtain ⟨ns, term, hsh, hterm, hbnd, hmono⟩ :=
          commonPhase_shape srcPath tempDir srcPath t e
        refine conclusion_of_shape _ (30 :: ns) term (by simp [hsh]) hterm ?_
        rw [List.pairwise_cons]
        exact ⟨fun x hx => by have := (hbnd x hx).1; omega, hmono⟩

/-- C7 counterexample: a folder run over one successful nested archive
emits the progress sequence `30, 40, 100, 100` — the value 100 repeats, so
the emitted progress values are not strictly increasing. -/
theorem c7_counterexample :
    progressVals (workerRun ["src"] ["tmp"] (.folderSrc true true c7tree) c7extract) =
      [30, 40, 100, 100] ∧
    ¬ (progressVals (workerRun ["src"] ["tmp"]
        (.folderSrc true true c7tree) c7extract)).Pairwise (· < ·) := by
  constructor
  · decide
  · decide

/-- Re-pointing a session path never changes session names. -/
theorem updateFirstPath_names :
    ∀ (l : List ASession) (nm : String) (dp : FPath),
      (updateFirstPath l nm dp).map (·.name) = l.map (·.name) := by
  intro l nm dp
  induction l with
  | nil => rfl
  | cons s rest ih =>
    unfold updateFirstPath
    by_cases h : s.name = nm
    · rw [if_pos h]
      simp
    · rw [if_neg h]
      simp [ih]

/-- The failure list of the loop is the input list followed by the
candidates whose extraction fails, in discovery order. -/
theorem step4Loop_failures_eq (e : FPath → Option DirT) (td : FPath) (total : Nat) :
    ∀ (cs : List FPath) (i : Nat) (ss : List ASession) (fl : List FPath)
      (ps : List Nat),
      (step4Loop e td total cs i ss fl ps).2.1 =
        fl ++ cs.filter fun c => (e c).isNone := by
  intro cs
  induction cs with
  | nil =>
    intro i ss fl ps
    unfold step4Loop
    simp
  | cons c rest ih =>
    intro i ss fl ps
    unfold step4Loop
    cases he : e c with
    | none =>
      rw [ih, List.filter_cons, List.append_assoc]
      simp [he]
    | some t =>
      rw [ih, List.filter_cons]
      simp [he]

/-- The session names produced by the loop: the accumulator's names
followed by one name per successfully extracted candidate, in discovery
order. -/
theorem step4Loop_sessions_names (e : FPath → Option DirT) (td : FPath) (total : Nat) :
    ∀ (cs : List FPath) (i : Nat) (ss : List ASession) (fl : List FPath)
      (ps : List Nat),
      ((step4Loop e td total cs i ss fl ps).1).map (·.name) =
        ss.map (·.name) ++
          (cs.filter fun c => (e c).isSome).map fun c => splitextBase (bname c) := by
  intro cs
  induction cs with
  | nil =>
    intro i ss fl ps
    unfold step4Loop
    simp
  | cons c rest ih =>
    intro i ss fl ps
    unfold step4Loop
    cases he : e c with
    | none =>
      rw [ih, List.filter_cons]
      simp [he]
    | some t =>
      dsimp only
      rw [ih, List.filter_cons]
      have hss2 : ∀ l : List ASession,
          (if (analyze_session_folder
                (treeFS (td ++ [splitextBase (bname c)]) t)
                (td ++ [splitextBase (bname c)])).is_chrome_profile then l
          else match firstProfileDir
              (treeFS (td ++ [splitextBase (bname c)]) t)
              (td ++ [splitextBase (bname c)]) t with
            | some dp => updateFirstPath l (splitextBase (bname c)) dp
            | none => l).map (·.name) = l.map (·.name) := by
        intro l
        by_cases h : (analyze_session_folder
            (treeFS (td ++ [splitextBase (bname c)]) t)
            (td ++ [splitextBase (bname c)])).is_chrome_profile
        · rw [if_pos h]
        · rw [if_neg h]
          cases firstProfileDir (treeFS (td ++ [splitextBase (bname c)]) t)
              (td ++ [splitextBase (bname c)]) t with
          | none => rfl
          | some dp => exact updateFirstPath_names l _ dp
      rw [hss2]
      simp [he]

/-- C2 amended: for an input folder whose nested-archive search finds
exactly three candidates of which exactly one fails extraction, the run
terminates in a success notification carrying exactly 2 sessions — one
per successfully extracted archive, named in discovery order with the
failing one skipped — and the loop records exactly 1 per-archive failure.
The failure list is only logged internally: the success notification
delivered to the caller carries sessions, archive name and source path
only (see the counterexample). -/
theorem c2_partial_failure_aggregation (srcPath tempDir : FPath) (t : DirT)
    (e : FPath → Option DirT) (c1 c2 c3 : FPath)
    (hroot : (analyze_session_folder (treeFS srcPath t) srcPath).is_chrome_profile
      = false)
    (hcands : sessionArchiveSearch (walkT srcPath t) = [c1, c2, c3])
    (hfails : (([c1, c2, c3] : List FPath).filter fun c => (e c).isNone).length = 1) :
    ∃ (pre : List Event) (ss : List ASession),
      workerRun srcPath tempDir (.folderSrc true true t) e =
        pre ++ [Event.finished ss (bname srcPath) srcPath] ∧
      ss.length = 2 ∧
      ss.map (·.name) =
        (([c1, c2, c3] : List FPath).filter fun c => (e c).isSome).map
          (fun c => splitextBase (bname c)) ∧
      (runFailures srcPath tempDir t e).length = 1 := by
  have hroot' : ¬ (analyze_session_folder (treeFS srcPath t) srcPath).is_chrome_profile
      = true := by
    rw [hroot]
    simp
  have hnames := step4Loop_sessions_names e tempDir
    ([c1, c2, c3] : List FPath).length [c1, c2, c3] 0 [] [] []
  rw [List.map_nil, List.nil_append] at hnames
  have hflen : ((([c1, c2, c3] : List FPath).filter fun c => (e c).isSome).length) = 2 := by
    rcases he1 : e c1 with _ | t1 <;> rcases he2 : e c2 with _ | t2 <;>
      rcases he3 : e c3 with _ | t3 <;>
      simp [List.filter_cons, he1, he2, he3] at hfails ⊢
  have hsslen : ((step4Loop e tempDir ([c1, c2, c3] : List FPath).length
      [c1, c2, c3] 0 [] [] []).1).length = 2 := by
    have h := congrArg List.length hnames
    rw [List.length_map, List.length_map] at h
    rw [h, hflen]
  have hne : ((step4Loop e tempDir ([c1, c2, c3] : List FPath).length
      [c1, c2, c3] 0 [] [] []).1).isEmpty = false := by
    rcases hni : (step4Loop e tempDir ([c1, c2, c3] : List FPath).length
        [c1, c2, c3] 0 [] [] []).1 with _ | ⟨x, xs⟩
    · rw [hni] at hsslen
      simp at hsslen
    · simp
  have hwr : workerRun srcPath tempDir (.folderSrc true true t) e =
      Event.progress 30 :: commonPhase srcPath tempDir srcPath t e := by
    simp [workerRun]
  have hcp : commonPhase srcPath tempDir srcPath t e =
      Event.progress 40 ::
        step4Events (step4Loop e tempDir ([c1, c2, c3] : List FPath).length
          [c1, c2, c3] 0 [] [] []) (bname srcPath) srcPath := by
    unfold commonPhase
    rw [if_neg hroot', hcands]
    rw [if_neg (by simp)]
  have hse : step4Events (step4Loop e tempDir ([c1, c2, c3] : List FPath).length
      [c1, c2, c3] 0 [] [] []) (bname srcPath) srcPath =
      ((step4Loop e tempDir ([c1, c2, c3] : List FPath).length
        [c1, c2, c3] 0 [] [] []).2.2).map Event.progress ++
      [Event.progress 100,
        Event.finished (step4Loop e tempDir ([c1, c2, c3] : List FPath).length
          [c1, c2, c3] 0 [] [] []).1 (bname srcPath) srcPath] := by
    unfold step4Events
    rw [hne]
    simp
  refine ⟨Event.progress 30 :: Event.progress 40 ::
      ((step4Loop e tempDir ([c1, c2, c3] : List FPath).length
        [c1, c2, c3] 0 [] [] []).2.2).map Event.progress ++ [Event.progress 100],
    (step4Loop e tempDir ([c1, c2, c3] : List FPath).length
      [c1, c2, c3] 0 [] [] []).1, ?_, hsslen, hnames, ?_⟩
  · rw [hwr, hcp, hse]
    simp
  · unfold runFailures
    rw [hcands]
    rw [step4Loop_failures_eq]
    simpa using hfails

/-- C2 witness: the concrete three-archive folder with `b.zip` corrupt. -/
theorem c2_witness :
    ∃ (pre : List Event) (ss : List ASession),
      workerRun ["src"] ["tmp"] (.folderSrc true true c2treeA) c2extract =
        pre ++ [Event.finished ss (bname ["src"]) ["src"]] ∧
      ss.length = 2 ∧
      ss.map (·.name) =
        (([["src", "a.zip"], ["src", "b.zip"], ["src", "c.zip"]] : List FPath).filter
          fun c => (c2extract c).isSome).map (fun c => splitextBase (bname c)) ∧
      (runFailures ["src"] ["tmp"] c2treeA c2extract).length = 1 :=
  c2_partial_failure_aggregation ["src"] ["tmp"] c2treeA c2extract
    ["src", "a.zip"] ["src", "b.zip"] ["src", "c.zip"]
    (by decide) (by decide) (by decide)

/-- C2 counterexample (to "the failure is attached as metadata to the
successful result delivered to the caller"): the three-archive run with
one corrupt archive records 1 failure, a two-archive run with no corrupt
archive records 0, yet both deliver the *identical* terminal success
notification — so the notification the caller receives carries no failure
metadata at all. -/
theorem c2_counterexample :
    (runFailures ["src"] ["tmp"] c2treeA c2extract).length = 1 ∧
    (runFailures ["src"] ["tmp"] c2treeB c2extract).length = 0 ∧
    (workerRun ["src"] ["tmp"] (.folderSrc true true c2treeA) c2extract).getLast? =
      (workerRun ["src"] ["tmp"] (.folderSrc true true c2treeB) c2extract).getLast? ∧
    (workerRun ["src"] ["tmp"] (.folderSrc true true c2treeA) c2extract).getLast? =
      some (Event.finished [⟨"a", ["tmp", "a"]⟩, ⟨"c", ["tmp", "c"]⟩] "src" ["src"]) := by
  refine ⟨by decide, by decide, by decide, by decide⟩

/-- Stripping a base off itself-plus-remainder yields the remainder. -/
theorem stripBase_append : ∀ (b r : FPath), stripBase b (b ++ r) = some r := by
  intro b
  induction b with
  | nil => intro r; rfl
  | cons x xs ih =>
    intro r
    show (if x = x then stripBase xs (xs ++ r) else none) = some r
    rw [if_pos rfl]
    exact ih r

mutual

theorem walkT_prefix : ∀ (t : DirT) (p : FPath) (fr : WalkFrame),
    fr ∈ walkT p t → ∃ r : FPath, fr.1 = p ++ r
  | .node rd fls subs, p, fr, h => by
    unfold walkT at h
    by_cases hrd : rd = true
    · rw [if_pos hrd] at h
      rcases List.mem_cons.mp h with rfl | h
      · exact ⟨[], by simp⟩
      · exact walkSubs_prefix subs p fr h
    · rw [if_neg hrd] at h
      simp at h

theorem walkSubs_prefix : ∀ (l : List (String × DirT)) (p : FPath) (fr : WalkFrame),
    fr ∈ walkSubs p l → ∃ r : FPath, fr.1 = p ++ r
  | [], p, fr, h => by simp [walkSubs] at h
  | e :: rest, p, fr, h => by
    unfold walkSubs at h
    rcases List.mem_append.mp h with h | h
    · obtain ⟨r, hr⟩ := walkT_prefix e.2 (p ++ [e.1]) fr h
      exact ⟨e.1 :: r, by simp [hr]⟩
    · exact walkSubs_prefix rest p fr h

end

/-- A frame of a subtree walk is a frame of the surrounding walk. -/
theorem walkSubs_mem_of : ∀ (l : List (String × DirT)) (p : FPath)
    (e : String × DirT), e ∈ l → ∀ x ∈ walkT (p ++ [e.1]) e.2, x ∈ walkSubs p l := by
  intro l
  induction l with
  | nil => intro p e he; simp at he
  | cons f rest ih =>
    intro p e he x hx
    unfold walkSubs
    rcases List.mem_cons.mp he with rfl | he
    · exact List.mem_append.mpr (Or.inl hx)
    · exact List.mem_append.mpr (Or.inr (ih p e he x hx))

/-- Resolving a nonempty relative path to a directory decomposes into
resolving the parent and finding the final component among its
subdirectories. -/
theorem resolveT_snoc : ∀ (r' : FPath) (t : DirT) (dn : String) (d : DirT),
    resolveT t (r' ++ [dn]) = .dirEnt d →
    ∃ par : DirT, resolveT t r' = .dirEnt par ∧ par.rdFlag = true ∧
      ∃ e ∈ par.subList, e.1 = dn ∧ e.2 = d := by
  intro r'
  induction r' with
  | nil =>
    intro t dn d h
    rw [List.nil_append] at h
    unfold resolveT at h
    by_cases hrd : t.rdFlag = true
    · rw [if_pos hrd] at h
      refine ⟨t, rfl, hrd, ?_⟩
      cases hf : t.subList.find? (fun e => e.1 = dn) with
      | some e =>
        rw [hf] at h
        unfold resolveT at h
        cases h
        refine ⟨e, List.mem_of_find?_eq_some hf, ?_, rfl⟩
        have := List.find?_some hf
        simpa using this
      | none =>
        rw [hf] at h
        cases hg : t.fileList.find? (fun e => e.1 = dn) with
        | some e =>
          rw [hg] at h
          simp at h
        | none =>
          rw [hg] at h
          cases h
    · rw [if_neg hrd] at h
      cases h
  | cons n rest ih =>
    intro t dn d h
    rw [List.cons_append] at h
    unfold resolveT at h
    by_cases hrd : t.rdFlag = true
    · rw [if_pos hrd] at h
      cases hf : t.subList.find? (fun e => e.1 = n) with
      | some e =>
        rw [hf] at h
        obtain ⟨par, hp1, hp2, hp3⟩ := ih e.2 dn d h
        refine ⟨par, ?_, hp2, hp3⟩
        unfold resolveT
        rw [if_pos hrd, hf]
        exact hp1
      | none =>
        rw [hf] at h
        cases hg : t.fileList.find? (fun e => e.1 = n) with
        | some e =>
          rw [hg] at h
          have : (rest ++ [dn]).isEmpty = false := by
            cases rest <;> rfl
          rw [this] at h
          simp at h
        | none =>
          rw [hg] at h
          cases h
    · rw [if_neg hrd] at h
      cases h

/-- A readable directory reachable through readable ancestors has its
walk frame in the walk. -/
theorem frame_of_resolve : ∀ (r : FPath) (t : DirT) (p : FPath) (d : DirT),
    resolveT t r = .dirEnt d → d.rdFlag = true →
    (p ++ r, d.subNames, d.fileList) ∈ walkT p t := by
  intro r
  induction r with
  | nil =>
    intro t p d h hrd
    unfold resolveT at h
    cases h
    rcases t with ⟨rd, fls, subs⟩
    unfold walkT
    rw [if_pos (show rd = true from hrd)]
    simp [DirT.subNames, DirT.subList, DirT.fileList]
  | cons n rest ih =>
    intro t p d h hrd
    unfold resolveT at h
    by_cases htrd : t.rdFlag = true
    · rw [if_pos htrd] at h
      cases hf : t.subList.find? (fun e => e.1 = n) with
      | some e =>
        rw [hf] at h
        have hmem := ih e.2 (p ++ [n]) d h hrd
        have he1 : e.1 = n := by
          have := List.find?_some hf
          simpa using this
        have hmem' := walkSubs_mem_of t.subList p e
          (List.mem_of_find?_eq_some hf) _ (he1 ▸ hmem)
        rcases t with ⟨rd, fls, subs⟩
        unfold walkT
        rw [if_pos (show rd = true from htrd)]
        refine List.mem_cons.mpr (Or.inr ?_)
        simpa [he1, List.append_assoc, DirT.subList] using hmem'
      | none =>
        rw [hf] at h
        cases hg : t.fileList.find? (fun e => e.1 = n) with
        | some e =>
          rw [hg] at h
          by_cases hre : rest.isEmpty <;> simp [hre] at h
        | none =>
          rw [hg] at h
          cases h
    · rw [if_neg htrd] at h
      cases h

/-- The directory observation of a mounted tree, through `resolveT`. -/
theorem treeFS_isDir_eq (base : FPath) (t : DirT) (r : FPath) :
    (treeFS base t).isDir (base ++ r) =
      match resolveT t r with
      | .dirEnt _ => true
      | _ => false := by
  show (match stripBase base (base ++ r) with
    | some r' =>
      match resolveT t r' with
      | .dirEnt _ => true
      | _ => false
    | none => false) = _
  rw [stripBase_append]

/-- The readability observation of a mounted tree, through `resolveT`. -/
theorem treeFS_canRead_eq (base : FPath) (t : DirT) (r : FPath) :
    (treeFS base t).canRead (base ++ r) =
      match resolveT t r with
      | .dirEnt d => d.rdFlag
      | .fileEnt _ => true
      | .missing => false := by
  show (match stripBase base (base ++ r) with
    | some r' =>
      match resolveT t r' with
      | .dirEnt d => d.rdFlag
      | .fileEnt _ => true
      | .missing => false
    | none => false) = _
  rw [stripBase_append]

/-- C6 amended: the nested profile search emits exactly the sessions named
after directories between 1 and 4 levels below the working root (the walk
visits roots up to depth 3 and classifies their children, so depth 4 — not
3 — is the real bound) that classify as profiles. -/
theorem c6_profile_search_depth (sourceDir : FPath) (t : DirT) (s : ASession) :
    s ∈ chromeProfileSearch (treeFS sourceDir t) sourceDir (walkT sourceDir t) ↔
      ∃ (r' : FPath) (dn : String),
        s.path = sourceDir ++ r' ++ [dn] ∧ s.name = dn ∧ r'.length ≤ 3 ∧
        (analyze_session_folder (treeFS sourceDir t) s.path).is_chrome_profile
          = true := by
  constructor
  · intro h
    unfold chromeProfileSearch at h
    rw [List.mem_flatMap] at h
    obtain ⟨fr, hfr, hs⟩ := h
    by_cases hd : fr.1.length - sourceDir.length > 3
    · rw [if_pos hd] at hs
      simp at hs
    · rw [if_neg hd] at hs
      rw [List.mem_filterMap] at hs
      obtain ⟨dn, hdn, hcond⟩ := hs
      by_cases hcr : (treeFS sourceDir t).canRead (fr.1 ++ [dn]) = false
      · rw [if_pos hcr] at hcond
        cases hcond
      · rw [if_neg hcr] at hcond
        by_cases hpr : (analyze_session_folder (treeFS sourceDir t)
            (fr.1 ++ [dn])).is_chrome_profile = true
        · rw [if_pos hpr] at hcond
          injection hcond with hs'
          obtain ⟨r, hr⟩ := walkT_prefix t sourceDir fr hfr
          refine ⟨r, dn, ?_, ?_, ?_, ?_⟩
          · rw [← hs', hr]
          · rw [← hs']
          · rw [hr, List.length_append] at hd
            omega
          · rw [← hs']
            exact hpr
        · rw [if_neg hpr] at hcond
          cases hcond
  · rintro ⟨r', dn, hpath, hname, hlen, hprof⟩
    obtain ⟨hex0, hdir0, hcr0⟩ := analyze_profile_guards _ _ hprof
    have hdir1 := hdir0
    rw [hpath, List.append_assoc, treeFS_isDir_eq] at hdir1
    cases hres : resolveT t (r' ++ [dn]) with
    | fileEnt sz =>
      rw [hres] at hdir1
      simp at hdir1
    | missing =>
      rw [hres] at hdir1
      simp at hdir1
    | dirEnt d =>
      obtain ⟨par, hpar, hparrd, e, hemem, he1, he2⟩ := resolveT_snoc r' t dn d hres
      have hframe := frame_of_resolve r' t sourceDir par hpar hparrd
      unfold chromeProfileSearch
      rw [List.mem_flatMap]
      refine ⟨(sourceDir ++ r', par.subNames, par.fileList), hframe, ?_⟩
      have hdepth : ¬ ((sourceDir ++ r',
          par.subNames, par.fileList).1.length - sourceDir.length > 3) := by
        simp only [List.length_append]
        omega
      rw [if_neg hdepth]
      rw [List.mem_filterMap]
      refine ⟨dn, List.mem_map.mpr ⟨e, hemem, he1⟩, ?_⟩
      have hdp : (sourceDir ++ r') ++ [dn] = s.path := by rw [hpath]
      rw [hdp]
      rw [if_neg (by rw [hcr0]; simp), if_pos hprof]
      rcases s with ⟨sn, sp⟩
      simp only at hname
      rw [hname]

/-- C6 counterexample: a profile directory `d` four levels below the
working root is emitted as a session by the run (the walk's depth guard
admits roots up to depth 3 and then classifies their children, one level
deeper), contradicting the claimed bound of 3 levels. -/
theorem c6_counterexample :
    workerRun ["src"] ["tmp"] (.folderSrc true true c6tree)
        (fun _ => (none : Option DirT)) =
      [.progress 30, .progress 40, .progress 100,
       .finished [⟨"d", ["src", "a", "b", "c", "d"]⟩] "src" ["src"]] ∧
    (["src", "a", "b", "c", "d"] : FPath).length - (["src"] : FPath).length = 4 := by
  refine ⟨by decide, by decide⟩
